import Mathlib

/-
  Verification development for the idl_rust repository.

  The file embeds, as executable Lean definitions, the parts of the source
  that the specification's claims are about:

  * src/lib.rs : the IDLSimple sorted-integer-set algebra (bitand, bitor,
    andnot, with the length-one binary-search fast path) and the IDLBitRange
    compressed bitmask structure (push_id, len, FromIterator).
  * src/cowcell.rs : the CowCell copy-on-write cell, modelled as a state
    machine over an abstract protected value type; read transactions are
    cloned handles of the generation current at begin time.
  * src/lincowcell.rs : the LinCowCell variant, modelled with explicit Arc
    reference counts per generation value so that deallocation (Drop) order
    is observable, mirroring the TestGcWrapper drop counter the repository
    tests use; LinCowCell::commit is decomposed into its three source steps
    (allocate the new inner, install the next link, overwrite the slot).
  * The writer mutex of begin_write_txn, modelled as a lock-transition
    system over write-transaction identifiers.
  * The mutex footprint of each public operation (which of the two mutexes,
    `write` and `active`, it locks and which it holds), read directly off
    the .lock() calls in src/cowcell.rs and src/lincowcell.rs.
-/

/-! ## IDLSimple (src/lib.rs lines 23-228) -/

/-- `IDLSimple(Vec<u64>)` from src/lib.rs line 24: a plain list of ids.
Ids are modelled as `Nat`; the operations only compare ids, so no 64-bit
wraparound is involved. -/
abbrev IDLSimple := List Nat

/-- Core loop of Rust `<[u64]>::binary_search` (called at src/lib.rs line 39):
search `c` in `l` within index window `[lo, hi)`; returns whether a matching
element was found (`.is_ok()` of the Rust result). -/
def binarySearchGo (l : List Nat) (c : Nat) (lo hi : Nat) : Bool :=
  if h : lo < hi then
    if l.getD ((lo + hi) / 2) 0 < c then binarySearchGo l c ((lo + hi) / 2 + 1) hi
    else if c < l.getD ((lo + hi) / 2) 0 then binarySearchGo l c lo ((lo + hi) / 2)
    else true
  else false
termination_by hi - lo
decreasing_by
  all_goals omega

/-- `self.0.binary_search(candidate).is_ok()` over the whole list. -/
def IDLSimple.binary_search (l : List Nat) (c : Nat) : Bool :=
  binarySearchGo l c 0 l.length

/-- `IDLSimple::bstbitand` from src/lib.rs lines 37-44: if the candidate id is
found by binary search, the result is the singleton of the candidate,
otherwise empty. -/
def IDLSimple.bstbitand (l : IDLSimple) (c : Nat) : IDLSimple :=
  if IDLSimple.binary_search l c then [c] else []

/-- The merge loop of `impl BitAnd for IDLSimple`, src/lib.rs lines 114-136:
advance two cursors, keeping ids present in both lists. -/
def IDLSimple.bitandLoop : List Nat → List Nat → List Nat
  | [], _ => []
  | _ :: _, [] => []
  | l :: ls, r :: rs =>
    if l = r then l :: IDLSimple.bitandLoop ls rs
    else if l < r then IDLSimple.bitandLoop ls (r :: rs)
    else IDLSimple.bitandLoop (l :: ls) rs
termination_by a b => a.length + b.length

/-- `impl BitAnd for IDLSimple`, src/lib.rs lines 97-139, including the
length-one fast paths that call `bstbitand` on the other operand. -/
def IDLSimple.bitand (a b : IDLSimple) : IDLSimple :=
  if a.length = 1 then IDLSimple.bstbitand b (a.headD 0)
  else if b.length = 1 then IDLSimple.bstbitand a (b.headD 0)
  else IDLSimple.bitandLoop a b

/-- `impl BitOr for IDLSimple`, src/lib.rs lines 141-187: merge both lists,
emitting each id once, then drain whichever side remains. -/
def IDLSimple.bitor : List Nat → List Nat → List Nat
  | [], rs => rs
  | ls, [] => ls
  | l :: ls, r :: rs =>
    if l = r then l :: IDLSimple.bitor ls rs
    else if l < r then l :: IDLSimple.bitor ls (r :: rs)
    else r :: IDLSimple.bitor (l :: ls) rs
termination_by a b => a.length + b.length

/-- `impl AndNot for IDLSimple`, src/lib.rs lines 189-228: keep ids of the
left list not present in the right list, then drain the rest of the left. -/
def IDLSimple.andnot : List Nat → List Nat → List Nat
  | [], _ => []
  | ls, [] => ls
  | l :: ls, r :: rs =>
    if l < r then l :: IDLSimple.andnot ls (r :: rs)
    else if l = r then IDLSimple.andnot ls rs
    else IDLSimple.andnot (l :: ls) rs
termination_by a b => a.length + b.length

/-! ## IDLBitRange (src/lib.rs lines 230-342) -/

/-- `IDLRange` from src/lib.rs lines 230-234: a 64-id window starting at
`range` with a bitmask of present ids.  The mask stays below 2^64 because
every bit position written is below 64. -/
structure IDLRange where
  range : Nat
  mask : Nat
deriving DecidableEq, Repr

/-- `IDLRange::new`, src/lib.rs lines 259-264. -/
def IDLRange.new (range mask : Nat) : IDLRange :=
  { range := range, mask := mask }

/-- `IDLRange::push_id`, src/lib.rs lines 266-269: XOR the bit for `value`
into the mask (`self.mask ^= 1 << value`). -/
def IDLRange.push_id (r : IDLRange) (value : Nat) : IDLRange :=
  { r with mask := r.mask ^^^ (1 <<< value) }

/-- `IDLBitRange` from src/lib.rs lines 272-275. -/
structure IDLBitRange where
  list : List IDLRange
deriving DecidableEq, Repr

/-- `IDLBitRange::push_id`, src/lib.rs lines 305-322: locate the last range;
if it covers `value`'s window, XOR the bit in, otherwise append a fresh
range holding only `value`'s bit. -/
def IDLBitRange.push_id (s : IDLBitRange) (value : Nat) : IDLBitRange :=
  let bvalue := value % 64
  let range := value - bvalue
  match s.list.getLast? with
  | some last =>
    if last.range = range then
      { list := s.list.dropLast ++ [last.push_id bvalue] }
    else
      { list := s.list ++ [IDLRange.new range (1 <<< bvalue)] }
  | none => { list := s.list ++ [IDLRange.new range (1 <<< bvalue)] }

/-- `IDLBitRange::len`, src/lib.rs lines 324-328: the body is literally `0`. -/
def IDLBitRange.len (_ : IDLBitRange) : Nat :=
  0

/-- `impl FromIterator<u64> for IDLBitRange`, src/lib.rs lines 331-342:
push every id of the iterator in order, starting from the empty list. -/
def IDLBitRange.from_iter (ids : List Nat) : IDLBitRange :=
  ids.foldl IDLBitRange.push_id { list := [] }

/-- Decompression of one range, following `IDLBitRangeIter::next`
(src/lib.rs lines 497-518): ascending bit positions 0..63 whose mask bit is
set, each offset by the range start. -/
def IDLRange.decomp (r : IDLRange) : List Nat :=
  ((List.range 64).filter (fun b => r.mask.testBit b)).map (fun b => b + r.range)

/-- Full decompressed id list of an `IDLBitRange`, ranges in list order, the
order the iterator yields. -/
def IDLBitRange.decompressed (s : IDLBitRange) : List Nat :=
  (s.list.map IDLRange.decomp).flatten

/-! ## CowCell state machine (src/cowcell.rs)

The protected value type is an abstract `α` (`T: Clone` in the source).
A state carries the value behind `active` (`current`), whether the `write`
mutex is held (`lockHeld`), the working copy of the open write transaction
if any (`work`, the `work: T` field of `CowCellWriteTxn`), the open read
transactions as handle-id/captured-value pairs (each `CowCellReadTxn<T>` is
an `Arc<CowCellInner<T>>` cloned at begin time, so the captured value is
immutable), and the list of committed generations (`history`). -/

/-- Reader lookup: the value a read-transaction handle dereferences to
(`Deref for CowCellInner`, src/cowcell.rs lines 83-90). -/
def rview {α : Type} (n : Nat) : List (Nat × α) → Option α
  | [] => none
  | (m, x) :: t => if m = n then some x else rview n t

/-- Remove a read-transaction handle (its `Arc` is dropped). -/
def removeReader {α : Type} (n : Nat) : List (Nat × α) → List (Nat × α)
  | [] => []
  | (m, x) :: t => if m = n then t else (m, x) :: removeReader n t

/-- State of one `CowCell` together with its outstanding transactions. -/
structure CState (α : Type) where
  current : α
  lockHeld : Bool
  work : Option α
  readers : List (Nat × α)
  history : List α
deriving DecidableEq

/-- Events on a `CowCell`.  `beginRead`/`closeRead` create and drop a
`CowCellReadTxn` with handle id `n`; `beginWrite` is `begin_write_txn`
completing (mutex acquired); `mutate v` writes through `get_mut`
(src/cowcell.rs lines 104-107); `commitW` is `CowCellWriteTxn::commit`
(lines 109-112, calling `CowCell::commit` lines 75-80); `abortW` drops the
transaction without committing. -/
inductive COp (α : Type)
  | beginRead (n : Nat)
  | closeRead (n : Nat)
  | beginWrite
  | mutate (v : α)
  | commitW
  | abortW
deriving DecidableEq

/-- One transition of the `CowCell` machine.

`begin_read_txn` (src/cowcell.rs lines 54-58) clones the `Arc` behind
`active`: the new reader captures the current value.  `begin_write_txn`
(lines 60-73) acquires the `write` mutex and clones the current value into
`work`; a call that finds the mutex held blocks, so it only appears in a
trace once the mutex is free — the guarded branch is unreachable in valid
traces.  `commit` overwrites the `Arc` in `active` with a new generation
built from `work` and releases the mutex.  Dropping the transaction
(`abortW`) just releases the mutex and discards `work`. -/
def cstep {α : Type} (s : CState α) : COp α → CState α
  | .beginRead n => { s with readers := (n, s.current) :: s.readers }
  | .closeRead n => { s with readers := removeReader n s.readers }
  | .beginWrite =>
    if s.lockHeld then s
    else { s with lockHeld := true, work := some s.current }
  | .mutate v => { s with work := s.work.map (fun _ => v) }
  | .commitW =>
    match s.work with
    | some w =>
      { current := w, lockHeld := false, work := none,
        readers := s.readers, history := s.history ++ [w] }
    | none => s
  | .abortW =>
    match s.work with
    | some _ => { s with lockHeld := false, work := none }
    | none => s

/-- Run a sequence of events. -/
def crun {α : Type} (s : CState α) (ops : List (COp α)) : CState α :=
  ops.foldl cstep s

/-- Whether an event creates or drops the read transaction with handle `n`. -/
def touchesReader {α : Type} (n : Nat) : COp α → Bool
  | .beginRead m => m == n
  | .closeRead m => m == n
  | _ => false

/-- Whether an event is a commit. -/
def isCommitOp {α : Type} : COp α → Bool
  | .commitW => true
  | _ => false

/-! ## LinCowCell with explicit reference counts (src/lincowcell.rs)

Generation values are identified by allocation ids (`Nat`), one per
`Arc<T>` created by `Arc::new`.  `rc` is the strong count of each live
allocation; dropping the last handle deallocates the `T`, which is recorded
in `freed` (this is what the repository's `TestGcWrapper` drop counter
observes, src/lincowcell.rs lines 213-226). -/

/-- `LinCowCellInner<T>` from src/lincowcell.rs lines 5-13: the `Arc<T>`
data handle plus the optional `next: Option<Arc<T>>` link. -/
structure LinInner where
  data : Nat
  next : Option Nat
deriving DecidableEq, Repr

/-- State of one `LinCowCell` plus its outstanding read transactions. -/
structure LinState where
  nextId : Nat
  rc : List (Nat × Nat)
  inner : LinInner
  readers : List (Nat × Nat)
  freed : List Nat
deriving DecidableEq, Repr

/-- Strong count of allocation `g` (0 when already deallocated). -/
def rcGet (g : Nat) : List (Nat × Nat) → Nat
  | [] => 0
  | (k, c) :: t => if k = g then c else rcGet g t

/-- Set the strong count of allocation `g`. -/
def rcSet (g c : Nat) : List (Nat × Nat) → List (Nat × Nat)
  | [] => [(g, c)]
  | (k, c0) :: t => if k = g then (g, c) :: t else (k, c0) :: rcSet g c t

/-- Remove allocation `g` from the count table. -/
def rcRemove (g : Nat) : List (Nat × Nat) → List (Nat × Nat)
  | [] => []
  | (k, c0) :: t => if k = g then t else (k, c0) :: rcRemove g t

/-- `Arc::clone`: bump the strong count of `g`. -/
def rcBump (g : Nat) (s : LinState) : LinState :=
  { s with rc := rcSet g (rcGet g s.rc + 1) s.rc }

/-- Drop one `Arc<T>` handle on `g`: decrement the count and, when it
reaches zero, deallocate the `T` (append `g` to `freed`). -/
def dropArc (g : Nat) (s : LinState) : LinState :=
  if rcGet g s.rc ≤ 1 then
    { s with rc := rcRemove g s.rc, freed := s.freed ++ [g] }
  else
    { s with rc := rcSet g (rcGet g s.rc - 1) s.rc }

/-- Drop an optional `Arc<T>` handle (a `next` field going out of scope). -/
def dropNextOpt (o : Option Nat) (s : LinState) : LinState :=
  match o with
  | some g => dropArc g s
  | none => s

/-- First step of `LinCowCell::commit` (src/lincowcell.rs line 76):
`LinCowCellInner::new(newdata)` — `Arc::new` allocates the new generation
value with strong count 1; the new inner's `next` is `None`.  Returns the
updated state and the fresh allocation id. -/
def commitAlloc (s : LinState) : LinState × Nat :=
  ({ s with nextId := s.nextId + 1, rc := (s.nextId, 1) :: s.rc }, s.nextId)

/-- Second step of `LinCowCell::commit` (src/lincowcell.rs line 80):
`rwguard.next = Some(new_inner.data.clone())` — clone the new data handle
(count +1), drop whatever the outgoing inner's `next` previously held, and
install the link while the outgoing inner still sits in the `active` slot. -/
def commitLink (s : LinState) (g : Nat) : LinState :=
  let s1 := dropNextOpt s.inner.next (rcBump g s)
  { s1 with inner := { data := s1.inner.data, next := some g } }

/-- Third step of `LinCowCell::commit` (src/lincowcell.rs line 83):
`*rwguard = new_inner` — the outgoing inner is dropped in place (its `data`
handle, then its freshly installed `next` handle), and the new inner, whose
`next` is `None`, becomes current. -/
def commitPublish (s : LinState) (g : Nat) : LinState :=
  let s1 := dropNextOpt s.inner.next (dropArc s.inner.data s)
  { s1 with inner := { data := g, next := none } }

/-- `LinCowCell::commit`, src/lincowcell.rs lines 74-84, as the composition
of its three steps. -/
def linCommit (s : LinState) : LinState :=
  let ag := commitAlloc s
  commitPublish (commitLink ag.1 ag.2) ag.2

/-- Events on a `LinCowCell`: open and drop a `LinCowCellReadTxn` with
handle id `n`, and a full write transaction committing (`begin_write_txn`
clones the value into `work`; `LinCowCellWriteTxn::commit` moves `work`
into `LinCowCell::commit`, so the only cell mutation is `linCommit`). -/
inductive LinOp
  | beginRead (n : Nat)
  | closeRead (n : Nat)
  | commitOp
deriving DecidableEq, Repr

/-- One transition of the `LinCowCell` machine.  `begin_read_txn`
(src/lincowcell.rs lines 51-57) clones `rwguard.data`; dropping the read
transaction drops that clone. -/
def linStep (s : LinState) : LinOp → LinState
  | .beginRead n =>
    let s1 := rcBump s.inner.data s
    { s1 with readers := (n, s.inner.data) :: s1.readers }
  | .closeRead n =>
    match rview n s.readers with
    | some g =>
      let s1 := dropArc g s
      { s1 with readers := removeReader n s1.readers }
    | none => s
  | .commitOp => linCommit s

/-- `LinCowCell::new` (src/lincowcell.rs lines 42-49): allocation id 0 holds
the initial value with strong count 1, `next` is `None`. -/
def linInit : LinState :=
  { nextId := 1, rc := [(0, 1)], inner := { data := 0, next := none },
    readers := [], freed := [] }

/-- Run a sequence of `LinCowCell` events. -/
def linRun (s : LinState) (ops : List LinOp) : LinState :=
  ops.foldl linStep s

/-! ## Writer serialization machine (src/cowcell.rs lines 60-73,
src/lincowcell.rs lines 59-72)

`begin_write_txn` first acquires the `write: Mutex<()>` and stores the
guard inside the transaction; the guard is released when the transaction is
consumed by `commit` or dropped.  The machine records the mutex state and
the identifiers of open write transactions; an acquisition is only enabled
while the mutex is free (a blocked caller completes later). -/

/-- Lock state plus open write-transaction ids. -/
structure WState where
  lockHeld : Bool
  openTxns : List Nat
deriving DecidableEq, Repr

/-- Writer events: `beginW i` is `begin_write_txn` returning transaction
`i`; `commitW i` consumes it; `dropW i` aborts it.  Both endings drop the
stored `MutexGuard`. -/
inductive WOp
  | beginW (i : Nat)
  | commitW (i : Nat)
  | dropW (i : Nat)
deriving DecidableEq, Repr

/-- Whether an event can occur: the mutex only admits `beginW` while free
(with a fresh id), and only an open transaction can end. -/
def wEnabled (s : WState) : WOp → Bool
  | .beginW i => !s.lockHeld && !(s.openTxns.contains i)
  | .commitW i => s.openTxns.contains i
  | .dropW i => s.openTxns.contains i

/-- Effect of a writer event. -/
def wStep (s : WState) : WOp → WState
  | .beginW i => { lockHeld := true, openTxns := i :: s.openTxns }
  | .commitW i => { lockHeld := false, openTxns := s.openTxns.erase i }
  | .dropW i => { lockHeld := false, openTxns := s.openTxns.erase i }

/-- A trace is valid when every event is enabled in the state it fires in. -/
def wValidRun : WState → List WOp → Bool
  | _, [] => true
  | s, op :: ops => wEnabled s op && wValidRun (wStep s op) ops

/-- Every state a trace passes through, initial and final included. -/
def wStates : WState → List WOp → List WState
  | s, [] => [s]
  | s, op :: ops => s :: wStates (wStep s op) ops

/-- Freshly constructed cell: mutex free, no open write transaction. -/
def wInit : WState :=
  { lockHeld := false, openTxns := [] }

/-! ## Mutex footprint of the public operations (src/cowcell.rs,
src/lincowcell.rs)

Both cells own two mutexes: `write: Mutex<()>` and `active` (the mutex
around the current generation).  Which operation locks and holds which
mutex is read directly off the source:

* `begin_read_txn` locks `active` only (src/cowcell.rs line 55,
  src/lincowcell.rs line 52) and releases it before returning.
* `begin_write_txn` locks `write` (line 62/61), then briefly `active`
  (line 64/63) to clone the value; the `write` guard is moved into the
  transaction.
* the mutation phase (`get_mut`, lines 104-107/109-111) runs holding only
  the `write` guard stored in the transaction.
* `commit` (lines 75-80/74-84) locks `active` while the caller still holds
  the `write` guard. -/

/-- The two mutexes of a cell. -/
inductive CcLock
  | writeLock
  | activeLock
deriving DecidableEq, Repr

/-- The operations whose lock behaviour the spec discusses. -/
inductive CcFn
  | beginReadTxn
  | beginWriteTxn
  | writeMutate
  | commitFn
deriving DecidableEq, Repr

/-- Mutexes an operation newly acquires while it runs (each `.lock()` call
in its body). -/
def locksAcquired : CcFn → List CcLock
  | .beginReadTxn => [.activeLock]
  | .beginWriteTxn => [.writeLock, .activeLock]
  | .writeMutate => []
  | .commitFn => [.activeLock]

/-- Mutexes held at some point while the operation runs (guards in scope,
including the `write` guard stored in the transaction). -/
def locksHeld : CcFn → List CcLock
  | .beginReadTxn => [.activeLock]
  | .beginWriteTxn => [.writeLock, .activeLock]
  | .writeMutate => [.writeLock]
  | .commitFn => [.writeLock, .activeLock]

/-- A call to `f` can be forced to wait on a thread currently inside `g`
exactly when `f` must acquire a mutex `g` holds. -/
def canBlockOn (f g : CcFn) : Bool :=
  (locksAcquired f).any (fun l => (locksHeld g).contains l)

/-! ## Lemmas about binary search and the IDLSimple merge loops -/

lemma getD_sorted_mono (l : List Nat) (hs : List.Sorted (· < ·) l)
    {i j : Nat} (hij : i < j) (hj : j < l.length) :
    l.getD i 0 < l.getD j 0 := by
  have hi : i < l.length := Nat.lt_trans hij hj
  rw [List.getD_eq_getElem l 0 hi, List.getD_eq_getElem l 0 hj]
  have h := List.pairwise_iff_get.mp hs ⟨i, hi⟩ ⟨j, hj⟩ (Fin.mk_lt_mk.mpr hij)
  simpa using h

lemma binarySearchGo_sound (l : List Nat) (c : Nat) (lo hi : Nat)
    (hhi : hi ≤ l.length) (h : binarySearchGo l c lo hi = true) : c ∈ l := by
  induction lo, hi using binarySearchGo.induct l c with
  | case1 lo hi hlt hx ih =>
    rw [binarySearchGo, dif_pos hlt, if_pos hx] at h
    exact ih hhi h
  | case2 lo hi hlt hx1 hx2 ih =>
    rw [binarySearchGo, dif_pos hlt, if_neg hx1, if_pos hx2] at h
    exact ih (by omega) h
  | case3 lo hi hlt hx1 hx2 =>
    have hmid : (lo + hi) / 2 < l.length := by omega
    have hx : l.getD ((lo + hi) / 2) 0 = c := by omega
    rw [List.getD_eq_getElem l 0 hmid] at hx
    exact hx ▸ List.getElem_mem hmid
  | case4 lo hi hlt =>
    rw [binarySearchGo, dif_neg hlt] at h
    exact absurd h (by simp)

lemma binarySearchGo_complete (l : List Nat) (hs : List.Sorted (· < ·) l) (c : Nat)
    (i : Nat) (hiLen : i < l.length) (hc : l.getD i 0 = c) (lo hi : Nat)
    (h1 : lo ≤ i) (h2 : i < hi) (h3 : hi ≤ l.length) :
    binarySearchGo l c lo hi = true := by
  induction lo, hi using binarySearchGo.induct l c with
  | case1 lo hi hlt hx ih =>
    have hmid : (lo + hi) / 2 < l.length := by omega
    have hgt : (lo + hi) / 2 < i := by
      rcases Nat.lt_trichotomy i ((lo + hi) / 2) with hlt2 | heq | hgt2
      · have := getD_sorted_mono l hs hlt2 hmid
        omega
      · have : l.getD ((lo + hi) / 2) 0 = c := heq ▸ hc
        omega
      · exact hgt2
    rw [binarySearchGo, dif_pos hlt, if_pos hx]
    exact ih (by omega) h2 h3
  | case2 lo hi hlt hx1 hx2 ih =>
    have hmid : (lo + hi) / 2 < l.length := by omega
    have hlt3 : i < (lo + hi) / 2 := by
      rcases Nat.lt_trichotomy i ((lo + hi) / 2) with hlt2 | heq | hgt2
      · exact hlt2
      · exfalso
        have : l.getD ((lo + hi) / 2) 0 = c := heq ▸ hc
        omega
      · exfalso
        have := getD_sorted_mono l hs hgt2 hiLen
        omega
    rw [binarySearchGo, dif_pos hlt, if_neg hx1, if_pos hx2]
    exact ih h1 hlt3 (by omega)
  | case3 lo hi hlt hx1 hx2 =>
    rw [binarySearchGo, dif_pos hlt, if_neg hx1, if_neg hx2]
  | case4 lo hi hlt =>
    omega

lemma binary_search_iff (l : List Nat) (hs : List.Sorted (· < ·) l) (c : Nat) :
    IDLSimple.binary_search l c = true ↔ c ∈ l := by
  constructor
  · exact binarySearchGo_sound l c 0 l.length (le_refl _)
  · intro hm
    obtain ⟨i, hiLen, hgi⟩ := List.mem_iff_getElem.mp hm
    exact binarySearchGo_complete l hs c i hiLen
      (by rw [List.getD_eq_getElem l 0 hiLen]; exact hgi) 0 l.length
      (Nat.zero_le _) hiLen (le_refl _)

lemma bstbitand_spec (l : List Nat) (hs : List.Sorted (· < ·) l) (y : Nat) :
    List.Sorted (· < ·) (IDLSimple.bstbitand l y)
    ∧ ∀ x, x ∈ IDLSimple.bstbitand l y ↔ x = y ∧ y ∈ l := by
  unfold IDLSimple.bstbitand
  split_ifs with h
  · have hy := (binary_search_iff l hs y).mp h
    refine ⟨List.sorted_singleton y, fun x => ?_⟩
    simp [hy]
  · have hy : y ∉ l := fun hm => by
      rw [(binary_search_iff l hs y).mpr hm] at h
      exact h rfl
    refine ⟨List.sorted_nil, fun x => ?_⟩
    simp
    intro hx
    exact fun hmem => hy (hx ▸ hmem)

lemma bitandLoop_sublist_left (a b : List Nat) :
    (IDLSimple.bitandLoop a b).Sublist a := by
  induction a, b using IDLSimple.bitandLoop.induct with
  | case1 x => simp [IDLSimple.bitandLoop]
  | case2 h t => simp [IDLSimple.bitandLoop]
  | case3 ls r rs ih =>
    simp only [IDLSimple.bitandLoop, if_pos]
    exact List.Sublist.cons₂ r ih
  | case4 l ls r rs h1 h2 ih =>
    simp only [IDLSimple.bitandLoop, if_neg h1, if_pos h2]
    exact List.Sublist.cons l ih
  | case5 l ls r rs h1 h2 ih =>
    simp only [IDLSimple.bitandLoop, if_neg h1, if_neg h2]
    exact ih

lemma bitandLoop_mem (a b : List Nat) (ha : List.Sorted (· < ·) a)
    (hb : List.Sorted (· < ·) b) (x : Nat) :
    x ∈ IDLSimple.bitandLoop a b ↔ x ∈ a ∧ x ∈ b := by
  induction a, b using IDLSimple.bitandLoop.induct with
  | case1 x => simp [IDLSimple.bitandLoop]
  | case2 h t => simp [IDLSimple.bitandLoop]
  | case3 ls r rs ih =>
    rw [IDLSimple.bitandLoop, if_pos rfl]
    rw [List.mem_cons, ih ha.of_cons hb.of_cons]
    simp only [List.mem_cons]
    tauto
  | case4 l ls r rs h1 h2 ih =>
    rw [IDLSimple.bitandLoop, if_neg h1, if_pos h2]
    rw [ih ha.of_cons hb]
    simp only [List.mem_cons]
    constructor
    · rintro ⟨hl, hr⟩
      exact ⟨Or.inr hl, hr⟩
    · rintro ⟨hl | hl, hr⟩
      · subst hl
        exfalso
        rcases hr with rfl | hr2
        · omega
        · have := List.rel_of_sorted_cons hb x hr2
          omega
      · exact ⟨hl, hr⟩
  | case5 l ls r rs h1 h2 ih =>
    rw [IDLSimple.bitandLoop, if_neg h1, if_neg h2]
    rw [ih ha hb.of_cons]
    simp only [List.mem_cons]
    constructor
    · rintro ⟨hl, hr⟩
      exact ⟨hl, Or.inr hr⟩
    · rintro ⟨hl, hr | hr⟩
      · subst hr
        exfalso
        rcases hl with rfl | hl2
        · omega
        · have := List.rel_of_sorted_cons ha x hl2
          omega
      · exact ⟨hl, hr⟩

lemma bitand_spec (a b : List Nat) (ha : List.Sorted (· < ·) a)
    (hb : List.Sorted (· < ·) b) :
    List.Sorted (· < ·) (IDLSimple.bitand a b)
    ∧ ∀ x, x ∈ IDLSimple.bitand a b ↔ x ∈ a ∧ x ∈ b := by
  unfold IDLSimple.bitand
  split_ifs with h1 h2
  · obtain ⟨y, rfl⟩ := List.length_eq_one.mp h1
    simp only [List.headD_cons]
    obtain ⟨hsort, hmem⟩ := bstbitand_spec b hb y
    refine ⟨hsort, fun x => ?_⟩
    rw [hmem x]
    simp only [List.mem_singleton]
    constructor
    · rintro ⟨rfl, hy⟩
      exact ⟨rfl, hy⟩
    · rintro ⟨rfl, hy⟩
      exact ⟨rfl, hy⟩
  · obtain ⟨y, rfl⟩ := List.length_eq_one.mp h2
    simp only [List.headD_cons]
    obtain ⟨hsort, hmem⟩ := bstbitand_spec a ha y
    refine ⟨hsort, fun x => ?_⟩
    rw [hmem x]
    simp only [List.mem_singleton]
    constructor
    · rintro ⟨rfl, hy⟩
      exact ⟨hy, rfl⟩
    · rintro ⟨hy, rfl⟩
      exact ⟨rfl, hy⟩
  · exact ⟨List.Pairwise.sublist (bitandLoop_sublist_left a b) ha,
      fun x => bitandLoop_mem a b ha hb x⟩

lemma bitor_mem (a b : List Nat) (x : Nat) :
    x ∈ IDLSimple.bitor a b ↔ x ∈ a ∨ x ∈ b := by
  induction a, b using IDLSimple.bitor.induct with
  | case1 rs => simp [IDLSimple.bitor]
  | case2 ls h =>
    cases ls with
    | nil => exact absurd rfl h
    | cons hd tl => simp [IDLSimple.bitor]
  | case3 ls r rs ih =>
    rw [IDLSimple.bitor, if_pos rfl]
    simp only [List.mem_cons, ih]
    tauto
  | case4 l ls r rs h1 h2 ih =>
    rw [IDLSimple.bitor, if_neg h1, if_pos h2]
    simp only [List.mem_cons, ih]
    tauto
  | case5 l ls r rs h1 h2 ih =>
    rw [IDLSimple.bitor, if_neg h1, if_neg h2]
    simp only [List.mem_cons, ih]
    tauto

lemma bitor_sorted (a b : List Nat) (ha : List.Sorted (· < ·) a)
    (hb : List.Sorted (· < ·) b) : List.Sorted (· < ·) (IDLSimple.bitor a b) := by
  induction a, b using IDLSimple.bitor.induct with
  | case1 rs => simpa [IDLSimple.bitor] using hb
  | case2 ls h =>
    cases ls with
    | nil => exact absurd rfl h
    | cons hd tl => simpa [IDLSimple.bitor] using ha
  | case3 ls r rs ih =>
    rw [IDLSimple.bitor, if_pos rfl]
    rw [List.sorted_cons]
    refine ⟨fun y hy => ?_, ih ha.of_cons hb.of_cons⟩
    rcases (bitor_mem ls rs y).mp hy with h | h
    · exact List.rel_of_sorted_cons ha y h
    · exact List.rel_of_sorted_cons hb y h
  | case4 l ls r rs h1 h2 ih =>
    rw [IDLSimple.bitor, if_neg h1, if_pos h2]
    rw [List.sorted_cons]
    refine ⟨fun y hy => ?_, ih ha.of_cons hb⟩
    rcases (bitor_mem ls (r :: rs) y).mp hy with h | h
    · exact List.rel_of_sorted_cons ha y h
    · rcases List.mem_cons.mp h with rfl | h3
      · exact h2
      · have := List.rel_of_sorted_cons hb y h3
        omega
  | case5 l ls r rs h1 h2 ih =>
    rw [IDLSimple.bitor, if_neg h1, if_neg h2]
    rw [List.sorted_cons]
    refine ⟨fun y hy => ?_, ih ha hb.of_cons⟩
    rcases (bitor_mem (l :: ls) rs y).mp hy with h | h
    · rcases List.mem_cons.mp h with rfl | h3
      · omega
      · have := List.rel_of_sorted_cons ha y h3
        omega
    · exact List.rel_of_sorted_cons hb y h

lemma andnot_sublist_left (a b : List Nat) :
    (IDLSimple.andnot a b).Sublist a := by
  induction a, b using IDLSimple.andnot.induct with
  | case1 rs => simp [IDLSimple.andnot]
  | case2 ls h =>
    cases ls with
    | nil => exact absurd rfl h
    | cons hd tl => simp [IDLSimple.andnot]
  | case3 l ls r rs h1 ih =>
    rw [IDLSimple.andnot, if_pos h1]
    exact List.Sublist.cons₂ l ih
  | case4 ls r rs h1 ih =>
    rw [IDLSimple.andnot, if_neg h1, if_pos rfl]
    exact List.Sublist.cons r ih
  | case5 l ls r rs h1 h2 ih =>
    rw [IDLSimple.andnot, if_neg h1, if_neg h2]
    exact ih

lemma andnot_mem (a b : List Nat) (ha : List.Sorted (· < ·) a)
    (hb : List.Sorted (· < ·) b) (x : Nat) :
    x ∈ IDLSimple.andnot a b ↔ x ∈ a ∧ x ∉ b := by
  induction a, b using IDLSimple.andnot.induct with
  | case1 rs => simp [IDLSimple.andnot]
  | case2 ls h =>
    cases ls with
    | nil => exact absurd rfl h
    | cons hd tl => simp [IDLSimple.andnot]
  | case3 l ls r rs h1 ih =>
    rw [IDLSimple.andnot, if_pos h1]
    rw [List.mem_cons, ih ha.of_cons hb]
    simp only [List.mem_cons]
    constructor
    · rintro (rfl | ⟨hl, hr⟩)
      · refine ⟨Or.inl rfl, ?_⟩
        rintro (rfl | hmem)
        · omega
        · have := List.rel_of_sorted_cons hb x hmem
          omega
      · exact ⟨Or.inr hl, hr⟩
    · rintro ⟨hl | hl, hr⟩
      · exact Or.inl hl
      · exact Or.inr ⟨hl, hr⟩
  | case4 ls r rs h1 ih =>
    rw [IDLSimple.andnot, if_neg h1, if_pos rfl]
    rw [ih ha.of_cons hb.of_cons]
    simp only [List.mem_cons]
    constructor
    · rintro ⟨hl, hr⟩
      have hxr : r < x := List.rel_of_sorted_cons ha x hl
      refine ⟨Or.inr hl, ?_⟩
      rintro (rfl | hmem)
      · omega
      · exact hr hmem
    · rintro ⟨hl | hl, hr⟩
      · exfalso
        exact hr (Or.inl hl)
      · exact ⟨hl, fun hmem => hr (Or.inr hmem)⟩
  | case5 l ls r rs h1 h2 ih =>
    rw [IDLSimple.andnot, if_neg h1, if_neg h2]
    rw [ih ha hb.of_cons]
    constructor
    · rintro ⟨hl, hr⟩
      have hrx : r < x := by
        rcases List.mem_cons.mp hl with rfl | h3
        · omega
        · have := List.rel_of_sorted_cons ha x h3
          omega
      refine ⟨hl, ?_⟩
      intro hmem
      rcases List.mem_cons.mp hmem with rfl | h4
      · omega
      · exact hr h4
    · rintro ⟨hl, hr⟩
      exact ⟨hl, fun hmem => hr (List.mem_cons_of_mem r hmem)⟩

/-- Claim C8: for every pair of strictly increasing lists of ids, IDLSimple's
bitand, bitor and andnot return the strictly increasing list representing,
respectively, the set intersection, the set union and the set difference
(left minus right) of the two input sets. -/
theorem idlsimple_set_algebra (a b : List Nat)
    (ha : List.Sorted (· < ·) a) (hb : List.Sorted (· < ·) b) :
    (List.Sorted (· < ·) (IDLSimple.bitand a b)
      ∧ ∀ x, x ∈ IDLSimple.bitand a b ↔ x ∈ a ∧ x ∈ b)
    ∧ (List.Sorted (· < ·) (IDLSimple.bitor a b)
      ∧ ∀ x, x ∈ IDLSimple.bitor a b ↔ x ∈ a ∨ x ∈ b)
    ∧ (List.Sorted (· < ·) (IDLSimple.andnot a b)
      ∧ ∀ x, x ∈ IDLSimple.andnot a b ↔ x ∈ a ∧ x ∉ b) := by
  refine ⟨bitand_spec a b ha hb,
    ⟨bitor_sorted a b ha hb, fun x => bitor_mem a b x⟩,
    ⟨List.Pairwise.sublist (andnot_sublist_left a b) ha,
      fun x => andnot_mem a b ha hb x⟩⟩

/-- Witness for C8 at the concrete pair `[2]` and `[1, 2, 4]`, which also
exercises the length-one binary-search fast path of bitand. -/
theorem idlsimple_set_algebra_witness :
    List.Sorted (· < ·) ([2] : List Nat)
    ∧ List.Sorted (· < ·) ([1, 2, 4] : List Nat)
    ∧ ((List.Sorted (· < ·) (IDLSimple.bitand [2] [1, 2, 4])
        ∧ ∀ x, x ∈ IDLSimple.bitand [2] [1, 2, 4] ↔ x ∈ [2] ∧ x ∈ [1, 2, 4])
      ∧ (List.Sorted (· < ·) (IDLSimple.bitor [2] [1, 2, 4])
        ∧ ∀ x, x ∈ IDLSimple.bitor [2] [1, 2, 4] ↔ x ∈ [2] ∨ x ∈ [1, 2, 4])
      ∧ (List.Sorted (· < ·) (IDLSimple.andnot [2] [1, 2, 4])
        ∧ ∀ x, x ∈ IDLSimple.andnot [2] [1, 2, 4] ↔ x ∈ [2] ∧ x ∉ [1, 2, 4])) :=
  ⟨by decide, by decide, idlsimple_set_algebra [2] [1, 2, 4] (by decide) (by decide)⟩

/-! ## CowCell lemmas and claim theorems -/

lemma rview_removeReader_ne {α : Type} (m n : Nat) (h : m ≠ n)
    (l : List (Nat × α)) :
    rview n (removeReader m l) = rview n l := by
  induction l with
  | nil => rfl
  | cons p t ih =>
    obtain ⟨k, x⟩ := p
    by_cases hk : k = m
    · subst hk
      simp [removeReader, rview, h]
    · simp only [removeReader, rview, if_neg hk, ih]

lemma cstep_readers_view {α : Type} (s : CState α) (op : COp α) (n : Nat)
    (h : touchesReader n op = false) :
    rview n (cstep s op).readers = rview n s.readers := by
  cases op with
  | beginRead m =>
    simp only [touchesReader, beq_eq_false_iff_ne, ne_eq] at h
    simp [cstep, rview, h]
  | closeRead m =>
    simp only [touchesReader, beq_eq_false_iff_ne, ne_eq] at h
    simp [cstep, rview_removeReader_ne m n h]
  | beginWrite => by_cases hl : s.lockHeld <;> simp [cstep, hl]
  | mutate v => simp [cstep]
  | commitW => cases hw : s.work <;> simp [cstep, hw]
  | abortW => cases hw : s.work <;> simp [cstep, hw]

/-- Claim C2: snapshot stability.  A read transaction holding captured value
`v` still observes exactly `v` after any sequence of events that does not
involve that read transaction itself, in particular after any number of
write transactions beginning, mutating and committing. -/
theorem snapshot_stability {α : Type} (s : CState α) (n : Nat) (v : α)
    (ops : List (COp α))
    (hobs : rview n s.readers = some v)
    (hops : ∀ op ∈ ops, touchesReader n op = false) :
    rview n (crun s ops).readers = some v := by
  induction ops generalizing s with
  | nil => simpa [crun] using hobs
  | cons op t ih =>
    have h1 : touchesReader n op = false := hops op (List.mem_cons_self op t)
    show rview n (crun (cstep s op) t).readers = some v
    exact ih (cstep s op)
      (by rw [cstep_readers_view s op n h1]; exact hobs)
      (fun o ho => hops o (List.mem_cons_of_mem op ho))

/-- Witness for C2: a reader observing 42 still observes 42 after two full
write transactions commit. -/
theorem snapshot_stability_witness :
    rview 5 (CState.mk 7 false none [(5, 42)] [] : CState Nat).readers = some 42
    ∧ (∀ op ∈ [COp.beginWrite, COp.mutate 9, COp.commitW, COp.beginWrite,
        COp.mutate 11, COp.commitW], touchesReader 5 op = false)
    ∧ rview 5 (crun (CState.mk 7 false none [(5, 42)] [])
        [COp.beginWrite, COp.mutate 9, COp.commitW, COp.beginWrite,
         COp.mutate 11, COp.commitW]).readers = some 42 := by
  refine ⟨by decide, by decide, snapshot_stability _ 5 42 _ (by decide) (by decide)⟩

lemma cstep_current_stable {α : Type} (s : CState α) (op : COp α)
    (h : isCommitOp op = false) :
    (cstep s op).current = s.current := by
  cases op with
  | beginRead n => rfl
  | closeRead n => rfl
  | beginWrite => by_cases hl : s.lockHeld <;> simp [cstep, hl]
  | mutate v => rfl
  | commitW => simp [isCommitOp] at h
  | abortW => cases hw : s.work <;> simp [cstep, hw]

lemma crun_current_stable {α : Type} (s : CState α) (ops : List (COp α))
    (h : ∀ op ∈ ops, isCommitOp op = false) :
    (crun s ops).current = s.current := by
  induction ops generalizing s with
  | nil => rfl
  | cons op t ih =>
    show (crun (cstep s op) t).current = s.current
    rw [ih (cstep s op) (fun o ho => h o (List.mem_cons_of_mem op ho))]
    exact cstep_current_stable s op (h op (List.mem_cons_self op t))

/-- Claim C3: round-trip value integrity.  After a write transaction mutates
its working copy to `v` and commits, any read transaction opened before the
next commit (here: after any commit-free event sequence `ops`) observes a
value equal to `v`. -/
theorem round_trip_value_integrity {α : Type} (s : CState α) (v : α) (n : Nat)
    (ops : List (COp α))
    (hlock : s.lockHeld = false)
    (hops : ∀ op ∈ ops, isCommitOp op = false) :
    rview n (cstep (crun (crun s [COp.beginWrite, COp.mutate v, COp.commitW]) ops)
      (COp.beginRead n)).readers = some v := by
  have h1 : (crun s [COp.beginWrite, COp.mutate v, COp.commitW]).current = v := by
    simp [crun, cstep, hlock]
  have h2 := crun_current_stable
    (crun s [COp.beginWrite, COp.mutate v, COp.commitW]) ops hops
  simp [cstep, rview, h1, h2]

/-- Witness for C3: commit 9, let another reader open and close, then a new
reader observes 9. -/
theorem round_trip_value_integrity_witness :
    (CState.mk 7 false none [] [] : CState Nat).lockHeld = false
    ∧ (∀ op ∈ [COp.beginRead 3, COp.closeRead 3], isCommitOp (α := Nat) op = false)
    ∧ rview 4 (cstep (crun (crun (CState.mk 7 false none [] [])
        [COp.beginWrite, COp.mutate 9, COp.commitW])
        [COp.beginRead 3, COp.closeRead 3]) (COp.beginRead 4)).readers = some 9 := by
  refine ⟨by decide, by decide,
    round_trip_value_integrity _ 9 4 _ (by decide) (by decide)⟩

lemma crun_mutates {α : Type} (ws : List α) (s : CState α) (x : α)
    (hw : s.work = some x) :
    ∃ y, crun s (ws.map COp.mutate) = { s with work := some y } := by
  induction ws generalizing s x with
  | nil =>
    refine ⟨x, ?_⟩
    cases s
    simp only [CState.mk.injEq] at *
    simp [crun, hw]
  | cons w t ih =>
    have hst : cstep s (COp.mutate w) = { s with work := some w } := by
      simp [cstep, hw]
    obtain ⟨y, hy⟩ := ih { s with work := some w } w (by simp)
    refine ⟨y, ?_⟩
    show crun (cstep s (COp.mutate w)) (t.map COp.mutate) = _
    rw [hst, hy]

/-- Claim C4: abort atomicity.  A write transaction that begins, performs any
sequence of mutations, and is dropped without committing leaves the cell
state completely unchanged: same current value, no new generation in the
history, unchanged readers, and the writer lock released. -/
theorem abort_atomicity {α : Type} (s : CState α) (ws : List α)
    (hlock : s.lockHeld = false) (hwork : s.work = none) :
    crun s (COp.beginWrite :: (ws.map COp.mutate ++ [COp.abortW])) = s := by
  have hbw : cstep s COp.beginWrite
      = { s with lockHeld := true, work := some s.current } := by
    simp [cstep, hlock]
  show crun (cstep s COp.beginWrite) (ws.map COp.mutate ++ [COp.abortW]) = s
  rw [hbw]
  obtain ⟨y, hy⟩ :=
    crun_mutates ws { s with lockHeld := true, work := some s.current } s.current rfl
  have happ : crun { s with lockHeld := true, work := some s.current }
      (ws.map COp.mutate ++ [COp.abortW])
      = cstep (crun { s with lockHeld := true, work := some s.current }
          (ws.map COp.mutate)) COp.abortW := by
    simp [crun, List.foldl_append]
  rw [happ, hy]
  cases s with
  | mk cur lk wk rd hs =>
    simp at hlock hwork
    subst hlock
    subst hwork
    simp [cstep]

/-- Witness for C4: a write transaction mutating twice then aborting returns
the exact starting state. -/
theorem abort_atomicity_witness :
    (CState.mk 7 false none [(1, 7)] [] : CState Nat).lockHeld = false
    ∧ (CState.mk 7 false none [(1, 7)] [] : CState Nat).work = none
    ∧ crun (CState.mk 7 false none [(1, 7)] [])
        (COp.beginWrite :: ([9, 12].map COp.mutate ++ [COp.abortW]))
        = CState.mk 7 false none [(1, 7)] [] := by
  refine ⟨by decide, by decide, abort_atomicity _ [9, 12] (by decide) (by decide)⟩

/-! ## LinCowCell lemmas and claim theorems -/

lemma dropArc_inner (g : Nat) (s : LinState) : (dropArc g s).inner = s.inner := by
  rw [dropArc]
  split_ifs <;> rfl

lemma dropNextOpt_inner (o : Option Nat) (s : LinState) :
    (dropNextOpt o s).inner = s.inner := by
  cases o with
  | none => rfl
  | some g => exact dropArc_inner g s

lemma rcBump_inner (g : Nat) (s : LinState) : (rcBump g s).inner = s.inner := rfl

lemma commitLink_inner (s : LinState) (g : Nat) :
    (commitLink s g).inner = { data := s.inner.data, next := some g } := by
  simp [commitLink, dropNextOpt_inner, rcBump_inner]

lemma commitPublish_inner (s : LinState) (g : Nat) :
    (commitPublish s g).inner = { data := g, next := none } := rfl

lemma linStep_next_none (s : LinState) (op : LinOp) (h : s.inner.next = none) :
    (linStep s op).inner.next = none := by
  cases op with
  | beginRead n => simpa [linStep, rcBump] using h
  | closeRead n =>
    cases hv : rview n s.readers with
    | none => simpa [linStep, hv] using h
    | some g =>
      simp only [linStep, hv]
      simpa [dropArc_inner] using h
  | commitOp =>
    show (linCommit s).inner.next = none
    rw [linCommit]
    rw [commitPublish_inner]

/-- Claim C5: the next-link invariant of `LinCowCell::commit`.  In every
reachable cell state the current inner's `next` is `None`; within a commit,
the link step installs `next = Some(new generation)` on the outgoing inner
while its data still occupies the current slot (i.e. before the slot is
replaced), and the publish step then makes the new generation current with
`next = None`. -/
theorem commit_next_link_invariant (ops : List LinOp) :
    (linRun linInit ops).inner.next = none
    ∧ (commitLink (commitAlloc (linRun linInit ops)).1
        (commitAlloc (linRun linInit ops)).2).inner
      = { data := (linRun linInit ops).inner.data,
          next := some (commitAlloc (linRun linInit ops)).2 }
    ∧ (linCommit (linRun linInit ops)).inner
      = { data := (commitAlloc (linRun linInit ops)).2, next := none } := by
  refine ⟨?_, ?_, ?_⟩
  · have key : ∀ (t : List LinOp) (s : LinState), s.inner.next = none →
        (linRun s t).inner.next = none := by
      intro t
      induction t with
      | nil => intro s h; exact h
      | cons op t2 ih =>
        intro s h
        exact ih (linStep s op) (linStep_next_none s op h)
    exact key ops linInit rfl
  · rw [commitLink_inner]
    rfl
  · rw [linCommit, commitPublish_inner]

/-- Claim C1, evaluated: the spec (and the repository's own
`test_gc_operation_linear`) require the generation-deallocation counter to
read 0 after the three reads are opened and two commits occur, 0 after
closing reader B, 0 after closing reader C, and 2 after closing reader A.
Running the embedded code on exactly that event sequence (generation values
are allocation ids 0, 1, 2 for gen1, gen2, gen3; readers A = 0 on gen1,
B = 1 on gen2, C = 2 on gen3) shows that closing B already deallocates
gen2's value: the counter reads 1, not 0, and the freeing order is
generation 2 before generation 1, violating strict creation order. -/
theorem lin_reclamation_trace_eval :
    (linRun linInit [LinOp.beginRead 0, LinOp.commitOp, LinOp.beginRead 1,
      LinOp.commitOp, LinOp.beginRead 2]).freed = []
    ∧ (linRun linInit [LinOp.beginRead 0, LinOp.commitOp, LinOp.beginRead 1,
      LinOp.commitOp, LinOp.beginRead 2, LinOp.closeRead 1]).freed = [1]
    ∧ (linRun linInit [LinOp.beginRead 0, LinOp.commitOp, LinOp.beginRead 1,
      LinOp.commitOp, LinOp.beginRead 2, LinOp.closeRead 1,
      LinOp.closeRead 2]).freed = [1]
    ∧ (linRun linInit [LinOp.beginRead 0, LinOp.commitOp, LinOp.beginRead 1,
      LinOp.commitOp, LinOp.beginRead 2, LinOp.closeRead 1, LinOp.closeRead 2,
      LinOp.closeRead 0]).freed = [1, 0] := by
  refine ⟨by decide, by decide, by decide, by decide⟩

/-! ## Writer serialization -/

/-- Invariant of the writer machine: when the mutex is free no write
transaction is open, and at most one is ever open. -/
def wInv (s : WState) : Prop :=
  (s.lockHeld = false → s.openTxns = []) ∧ s.openTxns.length ≤ 1

lemma wStep_inv (s : WState) (op : WOp) (hen : wEnabled s op = true)
    (h : wInv s) : wInv (wStep s op) := by
  obtain ⟨h1, h2⟩ := h
  cases op with
  | beginW i =>
    simp only [wEnabled, Bool.and_eq_true, Bool.not_eq_true'] at hen
    obtain ⟨hl, _⟩ := hen
    have := h1 hl
    constructor
    · intro hfalse
      simp [wStep] at hfalse
    · simp [wStep, this]
  | commitW i =>
    simp only [wEnabled] at hen
    have hsing : s.openTxns = [i] := by
      cases hl : s.openTxns with
      | nil => rw [hl] at hen; simp at hen
      | cons a t =>
        cases t with
        | nil =>
          rw [hl] at hen
          simp at hen
          simp [hen]
        | cons a2 t2 => rw [hl] at h2; simp at h2
    constructor
    · intro _
      simp [wStep, hsing]
    · simp [wStep, hsing]
  | dropW i =>
    simp only [wEnabled] at hen
    have hsing : s.openTxns = [i] := by
      cases hl : s.openTxns with
      | nil => rw [hl] at hen; simp at hen
      | cons a t =>
        cases t with
        | nil =>
          rw [hl] at hen
          simp at hen
          simp [hen]
        | cons a2 t2 => rw [hl] at h2; simp at h2
    constructor
    · intro _
      simp [wStep, hsing]
    · simp [wStep, hsing]

lemma wStates_inv (ops : List WOp) : ∀ (s : WState), wValidRun s ops = true →
    wInv s → ∀ t ∈ wStates s ops, wInv t := by
  induction ops with
  | nil =>
    intro s _ hinv t ht
    simp [wStates] at ht
    exact ht ▸ hinv
  | cons op rest ih =>
    intro s hval hinv t ht
    simp only [wValidRun, Bool.and_eq_true] at hval
    obtain ⟨hen, hval2⟩ := hval
    simp only [wStates, List.mem_cons] at ht
    rcases ht with rfl | ht2
    · exact hinv
    · exact ih (wStep s op) hval2 (wStep_inv s op hen hinv) t ht2

/-- Claim C6: writer serialization.  In every valid trace of the writer
mutex machine, every state the cell passes through has at most one open
write transaction: any two open transaction ids coincide, so the mutation
windows of two distinct write transactions never overlap. -/
theorem writer_serialization (ops : List WOp)
    (h : wValidRun wInit ops = true) :
    ∀ s ∈ wStates wInit ops, ∀ i j, i ∈ s.openTxns → j ∈ s.openTxns → i = j := by
  intro s hs i j hi hj
  have hinv := wStates_inv ops wInit h ⟨fun _ => rfl, by simp [wInit]⟩ s hs
  obtain ⟨_, h2⟩ := hinv
  cases hl : s.openTxns with
  | nil => rw [hl] at hi; simp at hi
  | cons a t =>
    cases t with
    | nil =>
      rw [hl] at hi hj
      simp at hi hj
      rw [hi, hj]
    | cons a2 t2 => rw [hl] at h2; simp at h2

/-- Witness for C6: one transaction commits, a second one aborts; every
traversed state has pairwise equal open transaction ids. -/
theorem writer_serialization_witness :
    wValidRun wInit [WOp.beginW 0, WOp.commitW 0, WOp.beginW 1, WOp.dropW 1] = true
    ∧ ∀ s ∈ wStates wInit [WOp.beginW 0, WOp.commitW 0, WOp.beginW 1, WOp.dropW 1],
        ∀ i j, i ∈ s.openTxns → j ∈ s.openTxns → i = j := by
  refine ⟨by decide, writer_serialization _ (by decide)⟩

/-! ## Non-blocking reads (claim C7) -/

/-- Counterexample to claim C7 as stated: the claim says a reader is never
blocked by a writer performing a commit, but `begin_read_txn` must acquire
the `active` mutex (src/cowcell.rs line 55, src/lincowcell.rs line 52) and
`commit` holds that same mutex for its whole body (src/cowcell.rs line 76,
src/lincowcell.rs line 75), so a reader arriving during a commit waits. -/
theorem begin_read_blocks_on_commit :
    canBlockOn CcFn.beginReadTxn CcFn.commitFn = true := by decide

/-- Claim C7 as amended: `begin_read_txn` acquires only the brief internal
`active` mutex and never the writer lock, so it is never blocked by a
writer that merely holds the writer lock while mutating its working copy;
it can, however, wait briefly while a commit's critical section holds the
`active` mutex. -/
theorem begin_read_lock_footprint :
    locksAcquired CcFn.beginReadTxn = [CcLock.activeLock]
    ∧ canBlockOn CcFn.beginReadTxn CcFn.writeMutate = false
    ∧ canBlockOn CcFn.beginReadTxn CcFn.commitFn = true := by
  refine ⟨rfl, by decide, by decide⟩

/-! ## IDLBitRange claim theorems -/

/-- Claim C9: `IDLBitRange::len` returns 0 for every value, even though a
non-empty id list pushed through `from_iter` stores those ids (the
decompressed content of `from_iter [1, 2, 3]` has three ids while `len`
still answers 0). -/
theorem idlbitrange_len_zero :
    (∀ s : IDLBitRange, s.len = 0)
    ∧ (IDLBitRange.from_iter [1, 2, 3]).decompressed.length = 3 := by
  refine ⟨fun _ => rfl, by decide⟩

lemma mem_decomp_iff (r : IDLRange) (x : Nat) :
    x ∈ r.decomp ↔ ∃ b0, b0 < 64 ∧ r.mask.testBit b0 = true ∧ b0 + r.range = x := by
  simp only [IDLRange.decomp, List.mem_map, List.mem_filter, List.mem_range]
  constructor
  · rintro ⟨b0, ⟨hb, ht⟩, hx⟩
    exact ⟨b0, hb, ht, hx⟩
  · rintro ⟨b0, hb, ht, hx⟩
    exact ⟨b0, ⟨hb, ht⟩, hx⟩

/-- Claim C10: `push_id` toggles membership.  If `v`'s bit is set in the
last (highest) range block of an `IDLBitRange` whose blocks are 64-aligned,
pushing `v` again removes `v` from the stored set (the XOR flips the bit
off), and pushing `v` twice in a row within that range block is the
identity on the structure. -/
theorem idlbitrange_push_id_toggles (l : List IDLRange) (b : IDLRange) (v : Nat)
    (hrange : b.range = v - v % 64)
    (hhigh : ∀ r ∈ l, r.range < b.range)
    (halign : ∀ r ∈ l, r.range % 64 = 0)
    (hmem : b.mask.testBit (v % 64) = true) :
    v ∉ (IDLBitRange.push_id ⟨l ++ [b]⟩ v).decompressed
    ∧ IDLBitRange.push_id (IDLBitRange.push_id ⟨l ++ [b]⟩ v) v = ⟨l ++ [b]⟩ := by
  have hpush1 : IDLBitRange.push_id ⟨l ++ [b]⟩ v = ⟨l ++ [b.push_id (v % 64)]⟩ := by
    simp [IDLBitRange.push_id, List.getLast?_concat, List.dropLast_concat, hrange]
  have hrange2 : (b.push_id (v % 64)).range = b.range := rfl
  have hpush2 : IDLBitRange.push_id ⟨l ++ [b.push_id (v % 64)]⟩ v
      = ⟨l ++ [(b.push_id (v % 64)).push_id (v % 64)]⟩ := by
    simp [IDLBitRange.push_id, List.getLast?_concat, List.dropLast_concat,
      hrange2, hrange]
  have hxor : (b.push_id (v % 64)).push_id (v % 64) = b := by
    cases b with
    | mk rg mk2 =>
      simp [IDLRange.push_id, Nat.xor_assoc]
  constructor
  · rw [hpush1]
    intro hv
    simp only [IDLBitRange.decompressed, List.mem_flatten, List.mem_map] at hv
    obtain ⟨dl, ⟨r, hr, rfl⟩, hvd⟩ := hv
    rw [mem_decomp_iff] at hvd
    obtain ⟨b0, hb0, ht, hx⟩ := hvd
    rcases List.mem_append.mp hr with hrl | hrb
    · have h1 := hhigh r hrl
      have h2 := halign r hrl
      have : r.range = b.range := by omega
      omega
    · have heq : r = b.push_id (v % 64) := by
        simpa using hrb
      subst heq
      have hb0v : b0 = v % 64 := by
        have halignb : b.range % 64 = 0 := by omega
        simp only [IDLRange.push_id] at hx ht ⊢
        omega
      subst hb0v
      simp only [IDLRange.push_id] at ht
      rw [show (1 : Nat) <<< (v % 64) = 2 ^ (v % 64) by
        rw [Nat.shiftLeft_eq, one_mul]] at ht
      rw [Nat.testBit_xor, Nat.testBit_two_pow] at ht
      simp [hmem] at ht
  · rw [hpush1, hpush2, hxor]

/-- Witness for C10: the range block `(0, mask 8)` holds exactly id 3;
pushing 3 removes it and pushing twice restores the structure. -/
theorem idlbitrange_push_id_toggles_witness :
    (IDLRange.mk 0 8).range = 3 - 3 % 64
    ∧ (∀ r ∈ ([] : List IDLRange), r.range < (IDLRange.mk 0 8).range)
    ∧ (∀ r ∈ ([] : List IDLRange), r.range % 64 = 0)
    ∧ (IDLRange.mk 0 8).mask.testBit (3 % 64) = true
    ∧ (3 ∉ (IDLBitRange.push_id ⟨[] ++ [IDLRange.mk 0 8]⟩ 3).decompressed
      ∧ IDLBitRange.push_id (IDLBitRange.push_id ⟨[] ++ [IDLRange.mk 0 8]⟩ 3) 3
        = ⟨[] ++ [IDLRange.mk 0 8]⟩) := by
  refine ⟨by decide, by decide, by decide, by decide,
    idlbitrange_push_id_toggles [] (IDLRange.mk 0 8) 3
      (by decide) (by decide) (by decide) (by decide)⟩
